import Mathlib

/-!
A shallow embedding of `src/app.py` (risk-parity weighting, tax-aware
waterfall allocation, market-data retrieval and the per-account report),
together with theorems settling the specification claims.

Python floats are modelled as rationals (`ℚ`); a pandas value that would be
`NaN` because a computation is undefined (e.g. the sample standard deviation
of fewer than two observations) is modelled as `Option.none`.  Python strings
are modelled as `String`, with `needle in haystack` modelled by an executable
substring scan over `List Char`.
-/

namespace App

open List

/-! ### Python substring containment (`needle in haystack`) -/

/-- `startsWith hay needle` holds when `needle` is an initial segment of
`hay`.  Used to model Python's substring test. -/
def startsWith : List Char → List Char → Bool
  | _, [] => true
  | [], _ :: _ => false
  | a :: as, b :: bs => a == b && startsWith as bs

/-- `containsSub needle hay` models Python's `needle in hay` substring test. -/
def containsSub (needle : List Char) : List Char → Bool
  | [] => needle.isEmpty
  | c :: t => startsWith (c :: t) needle || containsSub needle t

theorem startsWith_iff (hay needle : List Char) :
    startsWith hay needle = true ↔ ∃ rest, hay = needle ++ rest := by
  induction needle generalizing hay with
  | nil => cases hay <;> simp [startsWith]
  | cons b bs ih =>
    cases hay with
    | nil => simp [startsWith]
    | cons a as =>
      simp only [startsWith, Bool.and_eq_true, beq_iff_eq, ih]
      constructor
      · rintro ⟨rfl, rest, rfl⟩
        exact ⟨rest, rfl⟩
      · rintro ⟨rest, h⟩
        cases h
        exact ⟨rfl, rest, rfl⟩

theorem containsSub_iff (needle hay : List Char) :
    containsSub needle hay = true ↔ ∃ pre post, hay = pre ++ needle ++ post := by
  induction hay with
  | nil =>
    simp only [containsSub, List.isEmpty_iff]
    constructor
    · rintro rfl; exact ⟨[], [], rfl⟩
    · rintro ⟨pre, post, h⟩
      rcases List.append_eq_nil.mp h.symm with ⟨h1, h2⟩
      exact (List.append_eq_nil.mp h1).2
  | cons c t ih =>
    simp only [containsSub, Bool.or_eq_true, startsWith_iff, ih]
    constructor
    · rintro (⟨rest, h⟩ | ⟨pre, post, h⟩)
      · exact ⟨[], rest, by simpa using h⟩
      · exact ⟨c :: pre, post, by simp [h]⟩
    · rintro ⟨pre, post, h⟩
      cases pre with
      | nil => exact Or.inl ⟨post, by simpa using h⟩
      | cons p ps =>
        simp only [List.cons_append] at h
        cases h
        exact Or.inr ⟨ps, post, rfl⟩

/-! ### Tax classification (`optimize_asset_location`, lines 67–99) -/

/-- Account-name → tax-priority tier, from lines 86–91 of `app.py`:
priority 1 when the name contains `"Roth"` or `"HSA"`, else 2 when it
contains `"IRA"` or `"401k"`, else 3. -/
def accountPriority (name : String) : Nat :=
  if containsSub "Roth".data name.data || containsSub "HSA".data name.data then 1
  else if containsSub "IRA".data name.data || containsSub "401k".data name.data then 2
  else 3

/-- The hard-coded tax-inefficiency table of lines 69–75. -/
def tax_inefficiency : List (String × Nat) :=
  [("TLT", 10), ("IEF", 10), ("BND", 10),
   ("GLD", 8), ("DBC", 8),
   ("VNQ", 9),
   ("SPY", 2), ("VTI", 2), ("QQQ", 2),
   ("EEM", 3), ("VEA", 3)]

/-- `tax_inefficiency.get(t, 5)` of line 80. -/
def inefficiencyScore (t : String) : Nat := (tax_inefficiency.lookup t).getD 5

/-- Tax-type label of line 127. -/
def taxTypeLabel (p : Nat) : String :=
  if p = 1 then "Tax-Free" else if p = 2 then "Deferred" else "Taxable"

/-! ### Risk-parity weighting (`calculate_risk_parity_weights`, lines 34–45) -/

/-- The `min_vol = 0.001` clipping floor of line 40. -/
def min_vol : ℚ := 1 / 1000

/-- `volatilities.clip(lower=min_vol)`, elementwise (line 41). -/
def clipVol (v : ℚ) : ℚ := max v min_vol

/-- `inv_vol.sum()` of line 44: the sum of the inverses of the clipped
volatilities. -/
def invVolSum (vols : List (String × ℚ)) : ℚ :=
  (vols.map (fun p => (clipVol p.2)⁻¹)).sum

/-- `calculate_risk_parity_weights` (lines 34–45): clip each volatility to
`min_vol`, invert, and normalise by the sum of the inverses.  A pandas
Series keyed by asset is modelled as a list of (asset, value) pairs. -/
def calculate_risk_parity_weights (vols : List (String × ℚ)) : List (String × ℚ) :=
  vols.map (fun p => (p.1, (clipVol p.2)⁻¹ / invVolSum vols))

/-! ### Market-data retrieval (`get_market_data`, lines 12–32)

The external `yf.download` collaborator is modelled as a function
`download : String → Option (List ℚ)`: `none` when the ticker is entirely
missing from the returned frame's columns, `some series` otherwise (an
empty list models a present but empty Close column). -/

/-- The dict comprehension of line 23: keep, in ticker order, the Close
series of exactly those requested tickers present in the downloaded data. -/
def closeColumns (tickers : List String) (download : String → Option (List ℚ)) :
    List (String × List ℚ) :=
  tickers.filterMap (fun t => (download t).map (fun s => (t, s)))

/-- `close_data.empty` of line 25: a frame built from a dict of series is
empty exactly when it has no column with at least one row. -/
def frameEmpty (cols : List (String × List ℚ)) : Bool :=
  cols.all (fun p => p.2.isEmpty)

/-- `get_market_data` (lines 12–32), up to the Close-price frame it
computes: for a single requested ticker a missing `Close` column raises
(line 19); for several tickers, missing tickers are dropped by the
comprehension of line 23 and only an empty combined frame raises
(lines 25–26).  The volatility and latest-price derivation applied to each
retained column is modelled separately below. -/
def get_market_data (tickers : List String) (download : String → Option (List ℚ)) :
    Except String (List (String × List ℚ)) :=
  match tickers with
  | [t] =>
    match download t with
    | none => Except.error ("Close price data not available for " ++ t)
    | some s =>
      if frameEmpty [(t, s)] then Except.error "No valid price data could be retrieved"
      else Except.ok [(t, s)]
  | _ =>
    let close := closeColumns tickers download
    if frameEmpty close then Except.error "No valid price data could be retrieved"
    else Except.ok close

/-! ### Volatility (`get_market_data`, lines 28–32)

`returns = close_data.pct_change().dropna()` and
`volatility = returns.std() * np.sqrt(252)`, per series.  The pandas sample
standard deviation uses `ddof=1` and yields `NaN` on fewer than two
observations, modelled as `none`.  Since `√` leaves the rationals, we embed
the square of the annualized volatility; the volatility itself is its
square root, which is defined and non-negative exactly when the square
is. -/

/-- `close_data.pct_change().dropna()` for one series (line 29):
`return[t] = price[t]/price[t-1] - 1`, with the leading unresolved first
entry dropped. -/
def pct_change (prices : List ℚ) : List ℚ :=
  (prices.zip prices.tail).map (fun p => p.2 / p.1 - 1)

/-- Arithmetic mean of a list of rationals. -/
def listMean (xs : List ℚ) : ℚ := xs.sum / xs.length

/-- The square of the pandas sample standard deviation (`ddof = 1`):
`NaN` (`none`) on fewer than two observations. -/
def sampleVarianceQ (xs : List ℚ) : Option ℚ :=
  if xs.length < 2 then none
  else some ((xs.map (fun x => (x - listMean xs) ^ 2)).sum / ((xs.length : ℚ) - 1))

/-- The square of the annualized volatility of line 31:
`(returns.std())² * 252` for one price series. -/
def annualizedVolSq (prices : List ℚ) : Option ℚ :=
  (sampleVarianceQ (pct_change prices)).map (fun v => v * 252)

/-! ### The waterfall allocator (`optimize_asset_location`, lines 47–130) -/

/-- One row of the `sorted_accounts` working list (lines 93–99): `Name`,
`Balance`, mutable `Remaining`, tax `Priority`, and the `Holdings` dict
(modelled as an association list, most recent insertion first). -/
structure AccountState where
  name : String
  balance : ℚ
  remaining : ℚ
  priority : Nat
  holdings : List (String × ℚ)
deriving Repr, DecidableEq

/-- One row of `final_allocation` (lines 123–128). -/
structure AllocationEntry where
  account : String
  asset : String
  value : ℚ
  taxType : String
deriving Repr, DecidableEq

/-- Lines 85–99: build the account working rows, with `Remaining`
initialised to `Balance` and the priority inferred from the name. -/
def initAccounts (accounts : List (String × ℚ)) : List AccountState :=
  accounts.map (fun p => ⟨p.1, p.2, p.2, accountPriority p.1, []⟩)

/-- Comparison used by `sorted_accounts.sort(key=lambda x: x['Priority'])`
(line 102). -/
def accountLE (a b : AccountState) : Prop := a.priority ≤ b.priority

instance : DecidableRel accountLE := fun a b => Nat.decLe a.priority b.priority

instance : IsTotal AccountState accountLE := ⟨fun a b => Nat.le_total a.priority b.priority⟩

instance : IsTrans AccountState accountLE := ⟨fun _ _ _ => Nat.le_trans⟩

/-- Line 102: Python's `list.sort` is a stable ascending sort, embedded as
insertion sort (any two stable sorts by the same key agree). -/
def sortAccounts (l : List AccountState) : List AccountState :=
  l.insertionSort accountLE

/-- Comparison used by `sort_values(by='Inefficiency_Score')` (line 81). -/
def assetLE (a b : String × ℚ) : Prop := inefficiencyScore a.1 ≤ inefficiencyScore b.1

instance : DecidableRel assetLE := fun _ _ => Nat.decLe _ _

instance : IsTotal (String × ℚ) assetLE := ⟨fun _ _ => Nat.le_total _ _⟩

instance : IsTrans (String × ℚ) assetLE := ⟨fun _ _ _ => Nat.le_trans⟩

/-- Line 81: `assets_df.sort_values(by='Inefficiency_Score', ascending=False)`.
The program guarantees only that the result is a permutation of the rows in
descending score order: the default `kind='quicksort'` leaves the relative
order of equal-score rows unspecified (numpy's introsort is stable solely
below its small-array insertion-sort cutoff, and the app does not bound the
asset count).  The embedding must pick one concrete admissible order and
picks the stable descending one (reverse, stable ascending sort, reverse —
the skeleton of pandas' `nargsort`); none of the theorems below depends on
how equal-score rows are ordered. -/
def sortAssetsDesc (l : List (String × ℚ)) : List (String × ℚ) :=
  (l.reverse.insertionSort assetLE).reverse

/-- `target_amounts = target_weights * total_portfolio_value` (line 65). -/
def target_amounts (total : ℚ) (weights : List (String × ℚ)) : List (String × ℚ) :=
  weights.map (fun p => (p.1, p.2 * total))

/-- The inner loop of lines 110–128: scan the accounts in priority order,
stopping once `amount_needed ≤ 0`; place `min(need, remaining)` into each
account that still has `remaining > 0`, emitting an allocation entry and
decrementing the account's remaining capacity. -/
def placeAsset (asset : String) : ℚ → List AccountState →
    List AccountState × List AllocationEntry
  | _, [] => ([], [])
  | need, acc :: rest =>
    if need ≤ 0 then (acc :: rest, [])
    else if 0 < acc.remaining then
      ({ acc with
          remaining := acc.remaining - min need acc.remaining,
          holdings := (asset, min need acc.remaining) :: acc.holdings }
        :: (placeAsset asset (need - min need acc.remaining) rest).1,
       { account := acc.name, asset := asset, value := min need acc.remaining,
         taxType := taxTypeLabel acc.priority }
        :: (placeAsset asset (need - min need acc.remaining) rest).2)
    else
      (acc :: (placeAsset asset need rest).1, (placeAsset asset need rest).2)

/-- The outer loop of lines 107–128: final account states after processing
the given assets in order. -/
def runStates : List (String × ℚ) → List AccountState → List AccountState
  | [], sts => sts
  | a :: rest, sts => runStates rest (placeAsset a.1 a.2 sts).1

/-- The outer loop of lines 107–128: the `final_allocation` rows, in
emission order. -/
def runEntries : List (String × ℚ) → List AccountState → List AllocationEntry
  | [], _ => []
  | a :: rest, sts => (placeAsset a.1 a.2 sts).2 ++ runEntries rest (placeAsset a.1 a.2 sts).1

/-- The snapshots of the account states taken before processing each asset
and after the last one: the trajectory of the `Remaining` counters during
one allocation run. -/
def allocTrace : List (String × ℚ) → List AccountState → List (List AccountState)
  | [], sts => [sts]
  | a :: rest, sts => sts :: allocTrace rest (placeAsset a.1 a.2 sts).1

/-- `optimize_asset_location` (lines 47–130): scale the weights to dollar
targets, sort assets by descending inefficiency and accounts by ascending
priority, and run the waterfall fill, returning `final_allocation`. -/
def optimize_asset_location (total : ℚ) (weights : List (String × ℚ))
    (accounts : List (String × ℚ)) : List AllocationEntry :=
  runEntries (sortAssetsDesc (target_amounts total weights))
    (sortAccounts (initAccounts accounts))

/-- The account-state snapshots of one `optimize_asset_location` run. -/
def runTrace (total : ℚ) (weights : List (String × ℚ))
    (accounts : List (String × ℚ)) : List (List AccountState) :=
  allocTrace (sortAssetsDesc (target_amounts total weights))
    (sortAccounts (initAccounts accounts))

/-- Total dollar value of a list of allocation entries. -/
def totalValue (es : List AllocationEntry) : ℚ := (es.map AllocationEntry.value).sum

/-- Total remaining capacity of a list of account states. -/
def totalRem (sts : List AccountState) : ℚ := (sts.map AccountState.remaining).sum

/-- Remaining capacity held by accounts named `n`. -/
def remFor (n : String) (sts : List AccountState) : ℚ :=
  (sts.map (fun s => if s.name = n then s.remaining else 0)).sum

/-- Dollar value placed into accounts named `n`. -/
def valueFor (n : String) (es : List AllocationEntry) : ℚ :=
  (es.map (fun e => if e.account = n then e.value else 0)).sum

/-! ### The per-account report (`main` UI block, lines 212–236)

Lines 212–236 loop over the accounts; for each, the plan rows of that
account are selected, the latest prices are mapped in, and if any price in
the subset is missing (`NaN`, modelled as `none`) or non-positive the whole
subset is displayed value-only (lines 223–228); otherwise share counts
`Value / Current_Price` are shown for every row (lines 230–236).  Prices
are modelled as `String → Option ℚ`. -/

/-- The table shown for one account: either no assets, a value-only table
(asset, value, price as retrieved), or a full table with share counts. -/
inductive AccountReport where
  | noAssets : AccountReport
  | valueOnly (rows : List (String × ℚ × Option ℚ)) : AccountReport
  | withShares (rows : List (String × ℚ × ℚ × ℚ)) : AccountReport
deriving Repr, DecidableEq

/-- One row of the value-only table: asset, value, mapped price. -/
def entryRow (prices : String → Option ℚ) (e : AllocationEntry) : String × ℚ × Option ℚ :=
  (e.asset, e.value, prices e.asset)

/-- Line 223: a mapped price is invalid when it is missing (`isna`) or
non-positive (a `NaN` compares false against `≤ 0`, so the two pandas
checks together are exactly this predicate). -/
def invalidPrice (p : Option ℚ) : Bool := p.isNone || p.any (fun v => v ≤ 0)

/-- Lines 214–236 for one account. -/
def accountTable (plan : List AllocationEntry) (prices : String → Option ℚ)
    (acc : String) : AccountReport :=
  let subset := plan.filter (fun e => e.account == acc)
  if subset.isEmpty then AccountReport.noAssets
  else if subset.any (fun e => invalidPrice (prices e.asset)) then
    AccountReport.valueOnly (subset.map (entryRow prices))
  else
    AccountReport.withShares (subset.map (fun e =>
      (e.asset, e.value, (prices e.asset).getD 0, e.value / (prices e.asset).getD 0)))

/-- The whole loop of line 212: one table per account, in account order;
no account aborts the run. -/
def buildReport (accounts : List String) (plan : List AllocationEntry)
    (prices : String → Option ℚ) : List (String × AccountReport) :=
  accounts.map (fun acc => (acc, accountTable plan prices acc))

/-! ### Lemmas about one inner-loop pass (`placeAsset`) -/

theorem placeAsset_shape (a : String) (need : ℚ) (sts : List AccountState) :
    ((placeAsset a need sts).1).map (fun s => (s.name, s.balance, s.priority)) =
      sts.map (fun s => (s.name, s.balance, s.priority)) := by
  induction sts generalizing need with
  | nil => rfl
  | cons s rest ih =>
    simp only [placeAsset]
    split_ifs with h1 h2 <;> simp [ih]

theorem placeAsset_names (a : String) (need : ℚ) (sts : List AccountState) :
    ((placeAsset a need sts).1).map AccountState.name = sts.map AccountState.name := by
  have h := congrArg (List.map Prod.fst) (placeAsset_shape a need sts)
  simpa [List.map_map, Function.comp] using h

theorem placeAsset_rem_le (a : String) (need : ℚ) (sts : List AccountState) :
    List.Forall₂ (fun s t : AccountState => t.remaining ≤ s.remaining)
      sts (placeAsset a need sts).1 := by
  induction sts generalizing need with
  | nil => simp [placeAsset]
  | cons s rest ih =>
    simp only [placeAsset]
    split_ifs with h1 h2
    · exact List.forall₂_same.mpr (fun x _ => le_rfl)
    · refine List.Forall₂.cons ?_ (ih _)
      have : 0 ≤ min need s.remaining := le_min (le_of_lt (not_le.mp h1)) (le_of_lt h2)
      simpa using sub_le_self s.remaining this
    · exact List.Forall₂.cons le_rfl (ih _)

theorem placeAsset_rem_nonneg (a : String) (need : ℚ) (sts : List AccountState)
    (h : ∀ s ∈ sts, 0 ≤ s.remaining) :
    ∀ s ∈ (placeAsset a need sts).1, 0 ≤ s.remaining := by
  induction sts generalizing need with
  | nil => simp [placeAsset]
  | cons s rest ih =>
    simp only [placeAsset]
    split_ifs with h1 h2
    · exact h
    · intro t ht
      rcases List.mem_cons.mp ht with rfl | ht
      · simp only [sub_nonneg]
        exact min_le_right need s.remaining
      · exact ih _ (fun u hu => h u (List.mem_cons_of_mem s hu)) t ht
    · intro t ht
      rcases List.mem_cons.mp ht with rfl | ht
      · exact h t (List.mem_cons_self t rest)
      · exact ih _ (fun u hu => h u (List.mem_cons_of_mem s hu)) t ht

theorem placeAsset_totalRem (a : String) (need : ℚ) (sts : List AccountState) :
    totalRem (placeAsset a need sts).1 =
      totalRem sts - totalValue (placeAsset a need sts).2 := by
  induction sts generalizing need with
  | nil => simp [placeAsset, totalRem, totalValue]
  | cons s rest ih =>
    simp only [placeAsset]
    split_ifs with h1 h2 <;>
      simp only [totalRem, totalValue, List.map_cons, List.sum_cons, List.map_nil,
        List.sum_nil] at ih ⊢ <;>
      [skip; rw [ih]; rw [ih]] <;> ring

theorem placeAsset_remFor (n a : String) (need : ℚ) (sts : List AccountState) :
    remFor n (placeAsset a need sts).1 =
      remFor n sts - valueFor n (placeAsset a need sts).2 := by
  induction sts generalizing need with
  | nil => simp [placeAsset, remFor, valueFor]
  | cons s rest ih =>
    simp only [placeAsset]
    split_ifs with h1 h2 <;>
      simp only [remFor, valueFor, List.map_cons, List.sum_cons, List.map_nil,
        List.sum_nil] at ih ⊢
    · ring
    · rw [ih]
      by_cases hn : s.name = n <;> simp [hn] <;> ring
    · rw [ih]; ring

theorem min_chain (t r R : ℚ) (hR : 0 ≤ R) :
    min t r + min (t - min t r) R = min t (r + R) := by
  rcases le_total t r with h | h
  · rw [min_eq_left h, sub_self, min_eq_left hR, min_eq_left (by linarith)]
    ring
  · rw [min_eq_right h]
    rcases le_total (t - r) R with h2 | h2
    · rw [min_eq_left h2, min_eq_left (by linarith)]
      ring
    · rw [min_eq_right h2, min_eq_right (by linarith)]

theorem totalRem_nonneg (sts : List AccountState) (h : ∀ s ∈ sts, 0 ≤ s.remaining) :
    0 ≤ totalRem sts := by
  refine List.sum_nonneg ?_
  intro x hx
  rcases List.mem_map.mp hx with ⟨s, hs, rfl⟩
  exact h s hs

theorem placeAsset_totalValue (a : String) (need : ℚ) (sts : List AccountState)
    (hneed : 0 ≤ need) (h : ∀ s ∈ sts, 0 ≤ s.remaining) :
    totalValue (placeAsset a need sts).2 = min need (totalRem sts) := by
  induction sts generalizing need with
  | nil =>
    simp only [placeAsset, totalValue, totalRem, List.map_nil, List.sum_nil]
    exact (min_eq_right hneed).symm
  | cons s rest ih =>
    have hrest : ∀ u ∈ rest, 0 ≤ u.remaining := fun u hu => h u (List.mem_cons_of_mem s hu)
    have hRrest : 0 ≤ totalRem rest := totalRem_nonneg rest hrest
    simp only [placeAsset]
    split_ifs with h1 h2
    · have : need = 0 := le_antisymm h1 hneed
      subst this
      have hR : 0 ≤ totalRem (s :: rest) := totalRem_nonneg _ h
      simp only [totalValue, List.map_nil, List.sum_nil]
      exact (min_eq_left hR).symm
    · have hneed' : 0 ≤ need - min need s.remaining :=
        sub_nonneg.mpr (min_le_left need s.remaining)
      simp only [totalValue, List.map_cons, List.sum_cons] at ih ⊢
      rw [ih _ hneed' hrest]
      simp only [totalRem, List.map_cons, List.sum_cons]
      exact min_chain need s.remaining (totalRem rest) hRrest
    · have hzero : s.remaining = 0 := le_antisymm (not_lt.mp h2) (h s (List.mem_cons_self s rest))
      rw [ih _ hneed hrest]
      simp [totalRem, hzero]

theorem placeAsset_value_pos (a : String) (need : ℚ) (sts : List AccountState) :
    ∀ e ∈ (placeAsset a need sts).2, 0 < e.value := by
  induction sts generalizing need with
  | nil => simp [placeAsset]
  | cons s rest ih =>
    simp only [placeAsset]
    split_ifs with h1 h2
    · simp
    · intro e he
      rcases List.mem_cons.mp he with rfl | he
      · exact lt_min (not_le.mp h1) h2
      · exact ih _ e he
    · exact ih _

theorem placeAsset_accounts_sublist (a : String) (need : ℚ) (sts : List AccountState) :
    ((placeAsset a need sts).2.map AllocationEntry.account) <+
      (sts.map AccountState.name) := by
  induction sts generalizing need with
  | nil => simp [placeAsset]
  | cons s rest ih =>
    simp only [placeAsset]
    split_ifs with h1 h2
    · simp
    · simpa using List.Sublist.cons₂ s.name (ih (need - min need s.remaining))
    · simpa using List.Sublist.cons s.name (ih need)

theorem placeAsset_asset_eq (a : String) (need : ℚ) (sts : List AccountState) :
    ∀ e ∈ (placeAsset a need sts).2, e.asset = a := by
  induction sts generalizing need with
  | nil => simp [placeAsset]
  | cons s rest ih =>
    simp only [placeAsset]
    split_ifs with h1 h2
    · simp
    · intro e he
      rcases List.mem_cons.mp he with rfl | he
      · rfl
      · exact ih _ e he
    · exact ih _

/-! ### Lemmas about the outer loop (`runStates`, `runEntries`, `allocTrace`) -/

theorem totalValue_append (es fs : List AllocationEntry) :
    totalValue (es ++ fs) = totalValue es + totalValue fs := by
  simp [totalValue]

theorem valueFor_append (n : String) (es fs : List AllocationEntry) :
    valueFor n (es ++ fs) = valueFor n es + valueFor n fs := by
  simp [valueFor]

theorem runStates_names (assets : List (String × ℚ)) (sts : List AccountState) :
    (runStates assets sts).map AccountState.name = sts.map AccountState.name := by
  induction assets generalizing sts with
  | nil => rfl
  | cons a rest ih =>
    simp only [runStates]
    rw [ih, placeAsset_names]

theorem runStates_nonneg (assets : List (String × ℚ)) (sts : List AccountState)
    (h : ∀ s ∈ sts, 0 ≤ s.remaining) :
    ∀ s ∈ runStates assets sts, 0 ≤ s.remaining := by
  induction assets generalizing sts with
  | nil => exact h
  | cons a rest ih =>
    exact ih _ (placeAsset_rem_nonneg a.1 a.2 sts h)

theorem min_chain' (t T R : ℚ) (hT : 0 ≤ T) :
    min t R + min T (R - min t R) = min (t + T) R := by
  rcases le_total t R with h | h
  · rw [min_eq_left h]
    rcases le_total T (R - t) with h2 | h2
    · rw [min_eq_left h2, min_eq_left (by linarith)]
    · rw [min_eq_right h2, min_eq_right (by linarith)]
      ring
  · rw [min_eq_right h, sub_self, min_eq_right hT, min_eq_right (by linarith)]
    ring

theorem sum_snd_nonneg (l : List (String × ℚ)) (h : ∀ p ∈ l, 0 ≤ p.2) :
    0 ≤ (l.map Prod.snd).sum := by
  refine List.sum_nonneg ?_
  intro x hx
  rcases List.mem_map.mp hx with ⟨p, hp, rfl⟩
  exact h p hp

theorem runEntries_totalValue (assets : List (String × ℚ)) (sts : List AccountState)
    (hA : ∀ p ∈ assets, 0 ≤ p.2) (h : ∀ s ∈ sts, 0 ≤ s.remaining) :
    totalValue (runEntries assets sts) = min ((assets.map Prod.snd).sum) (totalRem sts) := by
  induction assets generalizing sts with
  | nil =>
    simp only [runEntries, totalValue, List.map_nil, List.sum_nil]
    exact (min_eq_left (totalRem_nonneg sts h)).symm
  | cons a rest ih =>
    have hrest : ∀ p ∈ rest, 0 ≤ p.2 := fun p hp => hA p (List.mem_cons_of_mem a hp)
    have ha : 0 ≤ a.2 := hA a (List.mem_cons_self a rest)
    have hnn' := placeAsset_rem_nonneg a.1 a.2 sts h
    simp only [runEntries, List.map_cons, List.sum_cons]
    rw [totalValue_append, ih _ hrest hnn',
      placeAsset_totalRem, placeAsset_totalValue a.1 a.2 sts ha h]
    exact min_chain' a.2 ((rest.map Prod.snd).sum) (totalRem sts)
      (sum_snd_nonneg rest hrest)

theorem runEntries_valueFor (n : String) (assets : List (String × ℚ))
    (sts : List AccountState) :
    valueFor n (runEntries assets sts) = remFor n sts - remFor n (runStates assets sts) := by
  induction assets generalizing sts with
  | nil => simp [runEntries, runStates, valueFor]
  | cons a rest ih =>
    simp only [runEntries, runStates]
    rw [valueFor_append, ih, placeAsset_remFor]
    ring

theorem runEntries_value_pos (assets : List (String × ℚ)) (sts : List AccountState) :
    ∀ e ∈ runEntries assets sts, 0 < e.value := by
  induction assets generalizing sts with
  | nil => simp [runEntries]
  | cons a rest ih =>
    intro e he
    rcases List.mem_append.mp he with he | he
    · exact placeAsset_value_pos a.1 a.2 sts e he
    · exact ih _ e he

theorem runEntries_asset_mem (assets : List (String × ℚ)) (sts : List AccountState) :
    ∀ e ∈ runEntries assets sts, e.asset ∈ assets.map Prod.fst := by
  induction assets generalizing sts with
  | nil => simp [runEntries]
  | cons a rest ih =>
    intro e he
    rcases List.mem_append.mp he with he | he
    · rw [placeAsset_asset_eq a.1 a.2 sts e he]
      exact List.mem_cons_self _ _
    · exact List.mem_cons_of_mem _ (ih _ e he)

theorem runEntries_pairs_nodup (assets : List (String × ℚ)) (sts : List AccountState)
    (hA : (assets.map Prod.fst).Nodup) (hS : (sts.map AccountState.name).Nodup) :
    ((runEntries assets sts).map (fun e => (e.account, e.asset))).Nodup := by
  induction assets generalizing sts with
  | nil => simp [runEntries]
  | cons a rest ih =>
    have hA' : (rest.map Prod.fst).Nodup := (List.nodup_cons.mp (by simpa using hA)).2
    have hAhead : a.1 ∉ rest.map Prod.fst := (List.nodup_cons.mp (by simpa using hA)).1
    have hS' : ((placeAsset a.1 a.2 sts).1.map AccountState.name).Nodup := by
      rw [placeAsset_names]; exact hS
    simp only [runEntries, List.map_append]
    refine List.Nodup.append ?_ (ih _ hA' hS') ?_
    · have heq : ((placeAsset a.1 a.2 sts).2.map (fun e => (e.account, e.asset)))
          = ((placeAsset a.1 a.2 sts).2.map AllocationEntry.account).map
              (fun m => (m, a.1)) := by
        rw [List.map_map]
        refine List.map_congr_left ?_
        intro e he
        simp [Function.comp, placeAsset_asset_eq a.1 a.2 sts e he]
      rw [heq]
      refine List.Nodup.map ?_ ((placeAsset_accounts_sublist a.1 a.2 sts).nodup hS)
      intro x y hxy
      simpa using congrArg Prod.fst hxy
    · intro x hx hx'
      rcases List.mem_map.mp hx with ⟨e, he, rfl⟩
      rcases List.mem_map.mp hx' with ⟨f, hf, hef⟩
      have h1 : e.asset = a.1 := placeAsset_asset_eq a.1 a.2 sts e he
      have h2 : f.asset ∈ rest.map Prod.fst := runEntries_asset_mem rest _ f hf
      have : e.asset = f.asset := congrArg Prod.snd hef.symm
      rw [h1] at this
      exact hAhead (by rw [this]; exact h2)

theorem allocTrace_cons_form (assets : List (String × ℚ)) (sts : List AccountState) :
    ∃ t, allocTrace assets sts = sts :: t := by
  cases assets <;> exact ⟨_, rfl⟩

theorem allocTrace_head (assets : List (String × ℚ)) (sts : List AccountState) :
    (allocTrace assets sts).head? = some sts := by
  cases assets <;> rfl

theorem allocTrace_chain (assets : List (String × ℚ)) (sts : List AccountState) :
    (allocTrace assets sts).Chain'
      (fun x y => List.Forall₂ (fun s t : AccountState => t.remaining ≤ s.remaining) x y) := by
  induction assets generalizing sts with
  | nil => simp [allocTrace]
  | cons a rest ih =>
    simp only [allocTrace]
    rw [List.chain'_cons']
    refine ⟨?_, ih _⟩
    intro y hy
    rw [allocTrace_head, Option.mem_some_iff] at hy
    subst hy
    exact placeAsset_rem_le a.1 a.2 sts

theorem allocTrace_mem_nonneg (assets : List (String × ℚ)) (sts : List AccountState)
    (h : ∀ s ∈ sts, 0 ≤ s.remaining) :
    ∀ x ∈ allocTrace assets sts, ∀ s ∈ x, 0 ≤ s.remaining := by
  induction assets generalizing sts with
  | nil =>
    intro x hx
    rcases List.mem_singleton.mp hx with rfl
    exact h
  | cons a rest ih =>
    intro x hx
    rcases List.mem_cons.mp hx with rfl | hx
    · exact h
    · exact ih _ (placeAsset_rem_nonneg a.1 a.2 sts h) x hx

theorem allocTrace_getLast (assets : List (String × ℚ)) (sts : List AccountState) :
    (allocTrace assets sts).getLast? = some (runStates assets sts) := by
  induction assets generalizing sts with
  | nil => rfl
  | cons a rest ih =>
    obtain ⟨t, ht⟩ := allocTrace_cons_form rest (placeAsset a.1 a.2 sts).1
    simp only [allocTrace, runStates]
    rw [ht, List.getLast?_cons_cons, ← ht, ih]

/-! ### Permutation and bookkeeping lemmas for the two sorts -/

theorem sortAccounts_perm (l : List AccountState) : sortAccounts l ~ l :=
  List.perm_insertionSort accountLE l

theorem sortAssetsDesc_perm (l : List (String × ℚ)) : sortAssetsDesc l ~ l := by
  unfold sortAssetsDesc
  calc (l.reverse.insertionSort assetLE).reverse
      ~ l.reverse.insertionSort assetLE := List.reverse_perm _
    _ ~ l.reverse := List.perm_insertionSort assetLE l.reverse
    _ ~ l := List.reverse_perm l

theorem remFor_nonneg (n : String) (sts : List AccountState)
    (h : ∀ s ∈ sts, 0 ≤ s.remaining) : 0 ≤ remFor n sts := by
  refine List.sum_nonneg ?_
  intro x hx
  rcases List.mem_map.mp hx with ⟨s, hs, rfl⟩
  by_cases hn : s.name = n <;> simp [hn]
  exact h s hs

theorem remFor_perm (n : String) {l₁ l₂ : List AccountState} (h : l₁ ~ l₂) :
    remFor n l₁ = remFor n l₂ :=
  (h.map _).sum_eq

theorem sum_select_not_mem (n : String) :
    ∀ l : List (String × ℚ), n ∉ l.map Prod.fst →
      (l.map (fun p => if p.1 = n then p.2 else 0)).sum = 0
  | [], _ => rfl
  | q :: rest, h => by
    have hq : q.1 ≠ n := fun hqn => h (by rw [List.map_cons, ← hqn]; exact List.mem_cons_self _ _)
    have hrest : n ∉ rest.map Prod.fst :=
      fun hn => h (by rw [List.map_cons]; exact List.mem_cons_of_mem _ hn)
    simp only [List.map_cons, List.sum_cons, if_neg hq,
      sum_select_not_mem n rest hrest, zero_add]

theorem sum_select_mem (p : String × ℚ) :
    ∀ l : List (String × ℚ), p ∈ l → (l.map Prod.fst).Nodup →
      (l.map (fun r => if r.1 = p.1 then r.2 else 0)).sum = p.2
  | [], h, _ => absurd h (List.not_mem_nil p)
  | q :: rest, hmem, hnd => by
    rw [List.map_cons] at hnd
    obtain ⟨h1, h2⟩ := List.nodup_cons.mp hnd
    rcases List.mem_cons.mp hmem with rfl | hmem'
    · rw [List.map_cons, List.sum_cons, if_pos rfl, sum_select_not_mem p.1 rest h1, add_zero]
    · have hp : p.1 ∈ rest.map Prod.fst := List.mem_map.mpr ⟨p, hmem', rfl⟩
      have hq : q.1 ≠ p.1 := fun hqp => h1 (hqp ▸ hp)
      simp only [List.map_cons, List.sum_cons, if_neg hq]
      rw [sum_select_mem p rest hmem' h2, zero_add]

theorem remFor_init_eq (n : String) (accounts : List (String × ℚ)) :
    remFor n (initAccounts accounts)
      = (accounts.map (fun p => if p.1 = n then p.2 else 0)).sum := by
  unfold remFor initAccounts
  rw [List.map_map]
  rfl

theorem remFor_init (accounts : List (String × ℚ)) (p : String × ℚ)
    (hmem : p ∈ accounts) (hnd : (accounts.map Prod.fst).Nodup) :
    remFor p.1 (initAccounts accounts) = p.2 := by
  rw [remFor_init_eq]
  exact sum_select_mem p accounts hmem hnd

/-! ### Claim theorems for the allocator totals and invariants -/

/-- C1: with non-negative target amounts and non-negative account balances,
the total value placed by `optimize_asset_location` equals
`min (sum of target amounts) (sum of account balances)`; in particular, when
the balances cover the targets, the placed total equals the target total
exactly, and any shortfall is left unplaced without an error (the function
is total and just returns a plan whose sum is the minimum). -/
theorem optimize_total_placed (total : ℚ) (weights accounts : List (String × ℚ))
    (hw : ∀ p ∈ weights, 0 ≤ p.2 * total)
    (hb : ∀ p ∈ accounts, 0 ≤ p.2) :
    totalValue (optimize_asset_location total weights accounts)
        = min ((weights.map (fun p => p.2 * total)).sum) ((accounts.map Prod.snd).sum)
      ∧ ((weights.map (fun p => p.2 * total)).sum ≤ (accounts.map Prod.snd).sum →
          totalValue (optimize_asset_location total weights accounts)
            = (weights.map (fun p => p.2 * total)).sum) := by
  have hA : ∀ q ∈ sortAssetsDesc (target_amounts total weights), 0 ≤ q.2 := by
    intro q hq
    have hq' : q ∈ target_amounts total weights :=
      (sortAssetsDesc_perm (target_amounts total weights)).mem_iff.mp hq
    rcases List.mem_map.mp hq' with ⟨p, hp, rfl⟩
    exact hw p hp
  have hS : ∀ s ∈ sortAccounts (initAccounts accounts), 0 ≤ s.remaining := by
    intro s hs
    have hs' : s ∈ initAccounts accounts :=
      (sortAccounts_perm (initAccounts accounts)).mem_iff.mp hs
    rcases List.mem_map.mp hs' with ⟨p, hp, rfl⟩
    exact hb p hp
  have h1 : ((sortAssetsDesc (target_amounts total weights)).map Prod.snd).sum
      = (weights.map (fun p => p.2 * total)).sum := by
    rw [((sortAssetsDesc_perm (target_amounts total weights)).map Prod.snd).sum_eq]
    unfold target_amounts
    rw [List.map_map]
    rfl
  have h2 : totalRem (sortAccounts (initAccounts accounts))
      = (accounts.map Prod.snd).sum := by
    unfold totalRem
    rw [((sortAccounts_perm (initAccounts accounts)).map AccountState.remaining).sum_eq]
    unfold initAccounts
    rw [List.map_map]
    rfl
  have hmain : totalValue (optimize_asset_location total weights accounts)
      = min ((weights.map (fun p => p.2 * total)).sum) ((accounts.map Prod.snd).sum) := by
    unfold optimize_asset_location
    rw [runEntries_totalValue _ _ hA hS, h1, h2]
  exact ⟨hmain, fun hle => by rw [hmain, min_eq_left hle]⟩

/-- C2: for accounts with non-negative balances and distinct names, the sum
of plan values placed into an account never exceeds its balance, and the
per-account remaining-capacity counters start at the balances and are
pointwise non-increasing and never negative along the snapshots of one
allocation run. -/
theorem optimize_account_invariants (total : ℚ) (weights accounts : List (String × ℚ))
    (hb : ∀ p ∈ accounts, 0 ≤ p.2)
    (hnd : (accounts.map Prod.fst).Nodup) :
    (∀ p ∈ accounts, valueFor p.1 (optimize_asset_location total weights accounts) ≤ p.2)
    ∧ (runTrace total weights accounts).head? = some (sortAccounts (initAccounts accounts))
    ∧ (∀ s ∈ sortAccounts (initAccounts accounts), s.remaining = s.balance)
    ∧ (runTrace total weights accounts).Chain'
        (fun x y => List.Forall₂ (fun s t : AccountState => t.remaining ≤ s.remaining) x y)
    ∧ (∀ x ∈ runTrace total weights accounts, ∀ s ∈ x, 0 ≤ s.remaining) := by
  have hS : ∀ s ∈ sortAccounts (initAccounts accounts), 0 ≤ s.remaining := by
    intro s hs
    have hs' : s ∈ initAccounts accounts :=
      (sortAccounts_perm (initAccounts accounts)).mem_iff.mp hs
    rcases List.mem_map.mp hs' with ⟨p, hp, rfl⟩
    exact hb p hp
  refine ⟨?_, allocTrace_head _ _, ?_, allocTrace_chain _ _, allocTrace_mem_nonneg _ _ hS⟩
  · intro p hp
    unfold optimize_asset_location
    rw [runEntries_valueFor]
    have hfin : 0 ≤ remFor p.1 (runStates (sortAssetsDesc (target_amounts total weights))
        (sortAccounts (initAccounts accounts))) :=
      remFor_nonneg _ _ (runStates_nonneg _ _ hS)
    have hinit : remFor p.1 (sortAccounts (initAccounts accounts)) = p.2 := by
      rw [remFor_perm p.1 (sortAccounts_perm (initAccounts accounts))]
      exact remFor_init accounts p hp hnd
    rw [hinit]
    linarith
  · intro s hs
    have hs' : s ∈ initAccounts accounts :=
      (sortAccounts_perm (initAccounts accounts)).mem_iff.mp hs
    rcases List.mem_map.mp hs' with ⟨p, hp, rfl⟩
    rfl

/-- C10: every emitted allocation entry has a strictly positive dollar
value, and (for distinct asset names and distinct account names, as a dict
and a Series index provide) each (account, asset) pair appears at most once
in the placement plan. -/
theorem optimize_entry_invariants (total : ℚ) (weights accounts : List (String × ℚ))
    (hw : (weights.map Prod.fst).Nodup)
    (ha : (accounts.map Prod.fst).Nodup) :
    (∀ e ∈ optimize_asset_location total weights accounts, 0 < e.value)
    ∧ ((optimize_asset_location total weights accounts).map
        (fun e => (e.account, e.asset))).Nodup := by
  constructor
  · exact runEntries_value_pos _ _
  · refine runEntries_pairs_nodup _ _ ?_ ?_
    · have hperm : (sortAssetsDesc (target_amounts total weights)).map Prod.fst
          ~ (target_amounts total weights).map Prod.fst :=
        (sortAssetsDesc_perm (target_amounts total weights)).map Prod.fst
      rw [hperm.nodup_iff]
      simpa [target_amounts, List.map_map, Function.comp] using hw
    · have hperm : (sortAccounts (initAccounts accounts)).map AccountState.name
          ~ (initAccounts accounts).map AccountState.name :=
        (sortAccounts_perm (initAccounts accounts)).map AccountState.name
      rw [hperm.nodup_iff]
      simpa [initAccounts, List.map_map, Function.comp] using ha

/-- Witness for `optimize_total_placed`: the shortfall scenario of the spec
(targets 6000 + 4000, balances 5000 + 3000): placed total is
`min 10000 8000`. -/
theorem optimize_total_placed_witness :
    totalValue (optimize_asset_location 1000 [("TLT", 6), ("SPY", 4)]
        [("Roth IRA", 5000), ("Brokerage", 3000)])
      = min (([(("TLT" : String), (6:ℚ)), ("SPY", 4)].map (fun p => p.2 * 1000)).sum)
          (([(("Roth IRA" : String), (5000:ℚ)), ("Brokerage", 3000)].map Prod.snd).sum) :=
  (optimize_total_placed 1000 [("TLT", 6), ("SPY", 4)] [("Roth IRA", 5000), ("Brokerage", 3000)]
    (by intro p hp; fin_cases hp <;> norm_num)
    (by intro p hp; fin_cases hp <;> norm_num)).1

/-- Witness for `optimize_account_invariants`: the trace of the same
concrete run starts at the sorted initial accounts. -/
theorem optimize_account_invariants_witness :
    (runTrace 1000 [("TLT", 6), ("SPY", 4)] [("Roth IRA", 5000), ("Brokerage", 3000)]).head?
      = some (sortAccounts (initAccounts [("Roth IRA", 5000), ("Brokerage", 3000)])) :=
  (optimize_account_invariants 1000 [("TLT", 6), ("SPY", 4)]
    [("Roth IRA", 5000), ("Brokerage", 3000)]
    (by intro p hp; fin_cases hp <;> norm_num)
    (by decide)).2.1

/-- Witness for `optimize_entry_invariants`: the concrete plan has no
repeated (account, asset) pair. -/
theorem optimize_entry_invariants_witness :
    ((optimize_asset_location 1000 [("TLT", 6), ("SPY", 4)]
        [("Roth IRA", 5000), ("Brokerage", 3000)]).map
      (fun e => (e.account, e.asset))).Nodup :=
  (optimize_entry_invariants 1000 [("TLT", 6), ("SPY", 4)]
    [("Roth IRA", 5000), ("Brokerage", 3000)] (by decide) (by decide)).2

/-! ### Claim theorems for the account ordering -/

/-- `needle` occurs as a substring of `hay`: the mathematical reading of
Python's `needle in hay`. -/
def HasSub (needle hay : String) : Prop :=
  ∃ pre post, hay.data = pre ++ needle.data ++ post

theorem containsSub_hasSub (needle hay : String) :
    containsSub needle.data hay.data = true ↔ HasSub needle hay :=
  containsSub_iff needle.data hay.data

/-- C4: the account tier is 1 when the name contains `"Roth"` or `"HSA"`
(even when it also contains `"IRA"` or `"401k"`: first match wins), else 2
when it contains `"IRA"` or `"401k"`, else 3; and the allocator fills
accounts in ascending tier order with equal-tier accounts kept in input
order (Python's stable `list.sort`). -/
theorem account_tiers_and_order (name : String) (accounts : List (String × ℚ)) :
    (HasSub "Roth" name ∨ HasSub "HSA" name → accountPriority name = 1)
    ∧ (¬(HasSub "Roth" name ∨ HasSub "HSA" name) →
        (HasSub "IRA" name ∨ HasSub "401k" name) → accountPriority name = 2)
    ∧ (¬(HasSub "Roth" name ∨ HasSub "HSA" name) →
        ¬(HasSub "IRA" name ∨ HasSub "401k" name) → accountPriority name = 3)
    ∧ (sortAccounts (initAccounts accounts)).Pairwise
        (fun a b => a.priority ≤ b.priority)
    ∧ (∀ x y : AccountState, [x, y] <+ initAccounts accounts →
        x.priority = y.priority → [x, y] <+ sortAccounts (initAccounts accounts)) := by
  have hroth : (containsSub "Roth".data name.data || containsSub "HSA".data name.data) = true
      ↔ (HasSub "Roth" name ∨ HasSub "HSA" name) := by
    rw [Bool.or_eq_true, containsSub_hasSub, containsSub_hasSub]
  have hira : (containsSub "IRA".data name.data || containsSub "401k".data name.data) = true
      ↔ (HasSub "IRA" name ∨ HasSub "401k" name) := by
    rw [Bool.or_eq_true, containsSub_hasSub, containsSub_hasSub]
  refine ⟨?_, ?_, ?_, ?_, ?_⟩
  · intro h
    unfold accountPriority
    rw [if_pos (hroth.mpr h)]
  · intro hn h
    unfold accountPriority
    rw [if_neg (fun hc => hn (hroth.mp hc)), if_pos (hira.mpr h)]
  · intro hn hn2
    unfold accountPriority
    rw [if_neg (fun hc => hn (hroth.mp hc)), if_neg (fun hc => hn2 (hira.mp hc))]
  · exact (List.sorted_insertionSort accountLE (initAccounts accounts)).imp (fun hab => hab)
  · intro x y hxy heq
    exact List.pair_sublist_insertionSort (le_of_eq heq) hxy

/-- Witness for `account_tiers_and_order`: `"Roth IRA"` contains both
`"Roth"` and `"IRA"` and classifies as tier 1, and two equal-tier (taxable)
accounts keep their input order after sorting. -/
theorem account_tiers_and_order_witness :
    accountPriority "Roth IRA" = 1
    ∧ initAccounts [("Taxable A", (10:ℚ)), ("Taxable B", 20)] <+
        sortAccounts (initAccounts [("Taxable A", 10), ("Taxable B", 20)]) :=
  ⟨(account_tiers_and_order "Roth IRA" []).1
      (Or.inl ⟨[], " IRA".data, by decide⟩),
   (account_tiers_and_order "x" [("Taxable A", 10), ("Taxable B", 20)]).2.2.2.2 _ _
      (List.Sublist.refl _) (by decide)⟩

/-! ### Claim theorems for the risk-parity weighting -/

theorem clipVol_pos (v : ℚ) : 0 < clipVol v :=
  lt_of_lt_of_le (by norm_num [min_vol]) (le_max_right v min_vol)

theorem invVolSum_pos (vols : List (String × ℚ)) (hne : vols ≠ []) :
    0 < invVolSum vols := by
  unfold invVolSum
  refine List.sum_pos _ ?_ ?_
  · intro x hx
    rcases List.mem_map.mp hx with ⟨p, hp, rfl⟩
    exact inv_pos.mpr (clipVol_pos p.2)
  · simpa using hne

/-- C5: for a non-empty volatility mapping with non-negative entries,
`calculate_risk_parity_weights` keeps the asset keys, returns weights
summing to exactly 1, every weight strictly positive, and each weight is
proportional to the inverse of the clipped volatility (no error is
possible: the clipped denominator is strictly positive). -/
theorem risk_parity_weights_ok (vols : List (String × ℚ)) (hne : vols ≠ [])
    (hnn : ∀ p ∈ vols, 0 ≤ p.2) :
    ((calculate_risk_parity_weights vols).map Prod.fst = vols.map Prod.fst)
    ∧ (((calculate_risk_parity_weights vols).map Prod.snd).sum = 1)
    ∧ (∀ p ∈ calculate_risk_parity_weights vols, 0 < p.2)
    ∧ (∀ i, i < vols.length →
        ((calculate_risk_parity_weights vols).getD i ("", 0)).2 * invVolSum vols
          = (clipVol ((vols.getD i ("", 0)).2))⁻¹) := by
  have hS := invVolSum_pos vols hne
  refine ⟨?_, ?_, ?_, ?_⟩
  · unfold calculate_risk_parity_weights
    rw [List.map_map]
    rfl
  · unfold calculate_risk_parity_weights
    rw [List.map_map]
    have hcomp : (Prod.snd ∘ fun p : String × ℚ => (p.1, (clipVol p.2)⁻¹ / invVolSum vols))
        = fun p : String × ℚ => (clipVol p.2)⁻¹ * (invVolSum vols)⁻¹ := by
      funext p
      simp [Function.comp, div_eq_mul_inv]
    rw [hcomp, List.sum_map_mul_right]
    exact mul_inv_cancel₀ (ne_of_gt hS)
  · intro p hp
    rcases List.mem_map.mp hp with ⟨q, hq, rfl⟩
    exact div_pos (inv_pos.mpr (clipVol_pos q.2)) hS
  · intro i hi
    have hlt : i < (calculate_risk_parity_weights vols).length := by
      simpa [calculate_risk_parity_weights] using hi
    rw [List.getD_eq_getElem _ _ hlt, List.getD_eq_getElem _ _ hi]
    have : (calculate_risk_parity_weights vols)[i]
        = ((vols[i].1, (clipVol (vols[i].2))⁻¹ / invVolSum vols)) := by
      simp [calculate_risk_parity_weights]
    rw [this]
    exact div_mul_cancel₀ _ (ne_of_gt hS)

/-- Witness for `risk_parity_weights_ok`: a concrete two-asset mapping has
weights summing to 1. -/
theorem risk_parity_weights_ok_witness :
    ((calculate_risk_parity_weights [("SPY", 1), ("TLT", 2)]).map Prod.snd).sum = 1 :=
  (risk_parity_weights_ok [("SPY", 1), ("TLT", 2)] (List.cons_ne_nil _ _)
    (by intro p hp; fin_cases hp <;> norm_num)).2.1

/-- C6: the weight returned by `calculate_risk_parity_weights` is antitone
in the volatility: an asset with volatility at most another's receives a
weight at least the other's. -/
theorem risk_parity_weights_antitone (vols : List (String × ℚ)) (i j : Nat)
    (hi : i < vols.length) (hj : j < vols.length)
    (hij : (vols.getD i ("", 0)).2 ≤ (vols.getD j ("", 0)).2) :
    ((calculate_risk_parity_weights vols).getD j ("", 0)).2
      ≤ ((calculate_risk_parity_weights vols).getD i ("", 0)).2 := by
  have hne : vols ≠ [] := by
    intro h
    rw [h] at hi
    exact absurd hi (by simp)
  have hS := invVolSum_pos vols hne
  have hli : i < (calculate_risk_parity_weights vols).length := by
    simpa [calculate_risk_parity_weights] using hi
  have hlj : j < (calculate_risk_parity_weights vols).length := by
    simpa [calculate_risk_parity_weights] using hj
  rw [List.getD_eq_getElem _ _ hi, List.getD_eq_getElem _ _ hj] at hij
  rw [List.getD_eq_getElem _ _ hli, List.getD_eq_getElem _ _ hlj]
  have hvi : (calculate_risk_parity_weights vols)[i]
      = ((vols[i].1, (clipVol (vols[i].2))⁻¹ / invVolSum vols)) := by
    simp [calculate_risk_parity_weights]
  have hvj : (calculate_risk_parity_weights vols)[j]
      = ((vols[j].1, (clipVol (vols[j].2))⁻¹ / invVolSum vols)) := by
    simp [calculate_risk_parity_weights]
  rw [hvi, hvj]
  have hclip : clipVol (vols[i].2) ≤ clipVol (vols[j].2) := max_le_max hij le_rfl
  have hinv : (clipVol (vols[j].2))⁻¹ ≤ (clipVol (vols[i].2))⁻¹ :=
    inv_anti₀ (clipVol_pos _) hclip
  exact (div_le_div_iff_of_pos_right hS).mpr hinv

/-- Witness for `risk_parity_weights_antitone`: with volatilities 1 and 2,
the second asset's weight is at most the first's. -/
theorem risk_parity_weights_antitone_witness :
    ((calculate_risk_parity_weights [("TLT", 1), ("SPY", 2)]).getD 1 ("", 0)).2
      ≤ ((calculate_risk_parity_weights [("TLT", 1), ("SPY", 2)]).getD 0 ("", 0)).2 :=
  risk_parity_weights_antitone [("TLT", 1), ("SPY", 2)] 0 1
    (by norm_num) (by norm_num) (by norm_num [List.getD])

/-! ### Claim theorems for market-data retrieval -/

/-- Download stub: `"AAA"` resolves to a two-point series, every other
ticker is missing from the downloaded frame. -/
def cexDownload : String → Option (List ℚ) :=
  fun t => if t = "AAA" then some [1, 2] else none

/-- C7 counterexample: with requested tickers `["AAA", "BBB"]` of which
`"BBB"` is entirely missing after retrieval, `get_market_data` does not
raise: it silently returns data for the strict subset `["AAA"]`. -/
theorem market_data_partial_cex :
    get_market_data ["AAA", "BBB"] cexDownload = Except.ok [("AAA", [1, 2])]
    ∧ ∀ msg, get_market_data ["AAA", "BBB"] cexDownload ≠ Except.error msg := by
  have h : get_market_data ["AAA", "BBB"] cexDownload = Except.ok [("AAA", [1, 2])] := by
    rfl
  refine ⟨h, ?_⟩
  intro msg hmsg
  rw [h] at hmsg
  cases hmsg

/-- Case split of `get_market_data`, for any number of requested tickers:
the call either fails, exactly when every retrieved Close column is empty,
or returns the retrieved columns. -/
theorem get_market_data_cases (tickers : List String)
    (download : String → Option (List ℚ)) :
    (frameEmpty (closeColumns tickers download) = true ∧
      ∃ msg, get_market_data tickers download = Except.error msg)
    ∨ (frameEmpty (closeColumns tickers download) = false ∧
      get_market_data tickers download = Except.ok (closeColumns tickers download)) := by
  cases tickers with
  | nil => exact Or.inl ⟨rfl, ⟨"No valid price data could be retrieved", rfl⟩⟩
  | cons a rest =>
    cases rest with
    | nil =>
      cases hd : download a with
      | none =>
        refine Or.inl ⟨?_, ⟨"Close price data not available for " ++ a, ?_⟩⟩
        · simp [closeColumns, frameEmpty, hd]
        · simp [get_market_data, hd]
      | some s =>
        have hcc : closeColumns [a] download = [(a, s)] := by
          simp [closeColumns, hd]
        cases s with
        | nil =>
          refine Or.inl ⟨by rw [hcc]; rfl,
            ⟨"No valid price data could be retrieved", ?_⟩⟩
          simp [get_market_data, hd, frameEmpty]
        | cons q qs =>
          refine Or.inr ⟨by rw [hcc]; rfl, ?_⟩
          rw [hcc]
          simp [get_market_data, hd, frameEmpty]
    | cons b rest2 =>
      have hform : get_market_data (a :: b :: rest2) download =
          (if frameEmpty (closeColumns (a :: b :: rest2) download) then
            Except.error "No valid price data could be retrieved"
          else Except.ok (closeColumns (a :: b :: rest2) download)) := rfl
      by_cases hfe : frameEmpty (closeColumns (a :: b :: rest2) download) = true
      · exact Or.inl ⟨hfe, ⟨_, by rw [hform, if_pos hfe]⟩⟩
      · refine Or.inr ⟨by simpa using hfe, ?_⟩
        rw [hform, if_neg hfe]

/-- C7 amended: `get_market_data` fails exactly when the combined retrieved
dataset is empty — every retrieved Close column is empty, which subsumes the
single requested ticker with no Close data (line 19, proved separately in
the third conjunct) — and otherwise returns exactly the columns of the
tickers the provider resolved, silently dropping missing tickers: a strict
subset of the request when some other requested ticker did not resolve. -/
theorem market_data_error_iff (tickers : List String)
    (download : String → Option (List ℚ)) :
    ((∃ msg, get_market_data tickers download = Except.error msg)
        ↔ ∀ p ∈ closeColumns tickers download, p.2 = [])
    ∧ ((∃ p ∈ closeColumns tickers download, p.2 ≠ []) →
        get_market_data tickers download = Except.ok (closeColumns tickers download))
    ∧ (∀ t, tickers = [t] → download t = none →
        get_market_data tickers download
          = Except.error ("Close price data not available for " ++ t))
    ∧ (∀ t s, (t, s) ∈ closeColumns tickers download
        ↔ t ∈ tickers ∧ download t = some s) := by
  have hempty : frameEmpty (closeColumns tickers download) = true
      ↔ ∀ p ∈ closeColumns tickers download, p.2 = [] := by
    simp [frameEmpty, List.all_eq_true, List.isEmpty_iff]
  refine ⟨?_, ?_, ?_, ?_⟩
  · constructor
    · rintro ⟨msg, hmsg⟩
      rcases get_market_data_cases tickers download with ⟨hfe, _⟩ | ⟨_, hok⟩
      · exact hempty.mp hfe
      · rw [hok] at hmsg
        cases hmsg
    · intro hall
      rcases get_market_data_cases tickers download with ⟨_, hmsg⟩ | ⟨hfe, _⟩
      · exact hmsg
      · rw [hempty.mpr hall] at hfe
        exact Bool.noConfusion hfe
  · rintro ⟨p, hp, hne⟩
    rcases get_market_data_cases tickers download with ⟨hfe, _⟩ | ⟨_, hok⟩
    · exact absurd (hempty.mp hfe p hp) hne
    · exact hok
  · intro t ht hd
    subst ht
    simp [get_market_data, hd]
  · intro t s
    simp only [closeColumns, List.mem_filterMap, Option.map_eq_some']
    constructor
    · rintro ⟨a, ha, s', hs', heq⟩
      have hfst : a = t := congrArg Prod.fst heq
      have hsnd : s' = s := congrArg Prod.snd heq
      subst hfst
      subst hsnd
      exact ⟨ha, hs'⟩
    · rintro ⟨ht, hs⟩
      exact ⟨t, ht, s, hs, rfl⟩

/-- Witness for `market_data_error_iff`: the concrete partial download
returns the available columns without error, while requesting the missing
ticker alone raises the single-ticker error of line 19. -/
theorem market_data_error_iff_witness :
    get_market_data ["AAA", "BBB"] cexDownload
      = Except.ok (closeColumns ["AAA", "BBB"] cexDownload)
    ∧ get_market_data ["BBB"] cexDownload
      = Except.error ("Close price data not available for " ++ "BBB") :=
  ⟨(market_data_error_iff ["AAA", "BBB"] cexDownload).2.1
      ⟨("AAA", [1, 2]), by decide, by decide⟩,
   (market_data_error_iff ["BBB"] cexDownload).2.2.1 "BBB" rfl (by decide)⟩

/-! ### Claim theorems for the per-account report -/

/-- Prices stub for the report theorems: `"XXX"` has price 50, every other
asset's latest price is missing. -/
def cexPrices : String → Option ℚ :=
  fun t => if t = "XXX" then some 50 else none

/-- C8 counterexample: an account holding one entry with a valid price and
one entry with a missing price is degraded to value-only display as a
whole — the valid-priced entry in the same account gets no share count,
contradicting per-entry skipping. -/
theorem report_degrades_whole_account_cex :
    buildReport ["Acct"]
        [⟨"Acct", "XXX", 100, "Taxable"⟩, ⟨"Acct", "YYY", 100, "Taxable"⟩] cexPrices
      = [("Acct", AccountReport.valueOnly
          [("XXX", 100, some 50), ("YYY", 100, none)])]
    ∧ ∀ rows, buildReport ["Acct"]
        [⟨"Acct", "XXX", 100, "Taxable"⟩, ⟨"Acct", "YYY", 100, "Taxable"⟩] cexPrices
      ≠ [("Acct", AccountReport.withShares rows)] := by
  have h : buildReport ["Acct"]
      [⟨"Acct", "XXX", 100, "Taxable"⟩, ⟨"Acct", "YYY", 100, "Taxable"⟩] cexPrices
      = [("Acct", AccountReport.valueOnly
          [("XXX", 100, some 50), ("YYY", 100, none)])] := by
    rfl
  refine ⟨h, ?_⟩
  intro rows hrows
  rw [h] at hrows
  simp at hrows

/-- C8 amended: the degradation is per account, not per entry: an account
with no rows reports no assets; an account whose subset contains any
missing or non-positive price is displayed value-only as a whole; an
account whose prices are all valid gets share counts `value / price` for
every row; each account's table depends only on the prices of its own
assets; and the report covers every account (the run is not aborted). -/
theorem report_per_account (plan : List AllocationEntry) (prices : String → Option ℚ)
    (acc : String) :
    (accountTable plan prices acc = AccountReport.noAssets
        ↔ plan.filter (fun e => e.account == acc) = [])
    ∧ (plan.filter (fun e => e.account == acc) ≠ [] →
        (∃ e ∈ plan.filter (fun e => e.account == acc),
            invalidPrice (prices e.asset) = true) →
        accountTable plan prices acc
          = AccountReport.valueOnly
              ((plan.filter (fun e => e.account == acc)).map (entryRow prices)))
    ∧ (plan.filter (fun e => e.account == acc) ≠ [] →
        (∀ e ∈ plan.filter (fun e => e.account == acc),
            invalidPrice (prices e.asset) = false) →
        accountTable plan prices acc
          = AccountReport.withShares
              ((plan.filter (fun e => e.account == acc)).map (fun e =>
                (e.asset, e.value, (prices e.asset).getD 0,
                  e.value / (prices e.asset).getD 0))))
    ∧ (∀ prices' : String → Option ℚ,
        (∀ e ∈ plan.filter (fun e => e.account == acc),
            prices' e.asset = prices e.asset) →
        accountTable plan prices' acc = accountTable plan prices acc)
    ∧ (∀ accounts : List String,
        (buildReport accounts plan prices).length = accounts.length) := by
  have accountTable_eq : ∀ (pr : String → Option ℚ),
      accountTable plan pr acc =
        (if (plan.filter (fun e => e.account == acc)).isEmpty then AccountReport.noAssets
        else if (plan.filter (fun e => e.account == acc)).any
            (fun e => invalidPrice (pr e.asset)) then
          AccountReport.valueOnly
            ((plan.filter (fun e => e.account == acc)).map (entryRow pr))
        else
          AccountReport.withShares
            ((plan.filter (fun e => e.account == acc)).map (fun e =>
              (e.asset, e.value, (pr e.asset).getD 0,
                e.value / (pr e.asset).getD 0)))) :=
    fun _ => rfl
  refine ⟨?_, ?_, ?_, ?_, ?_⟩
  · rw [accountTable_eq]
    by_cases hsub : (plan.filter (fun e => e.account == acc)).isEmpty = true
    · rw [if_pos hsub]
      exact ⟨fun _ => List.isEmpty_iff.mp hsub, fun _ => rfl⟩
    · rw [if_neg hsub]
      constructor
      · intro hcon
        split at hcon <;> cases hcon
      · intro hnil
        exact absurd (List.isEmpty_iff.mpr hnil) hsub
  · intro hne hex
    rw [accountTable_eq]
    rw [if_neg (fun hc => hne (List.isEmpty_iff.mp hc))]
    rw [if_pos (List.any_eq_true.mpr (by
      rcases hex with ⟨e, he, hinv⟩
      exact ⟨e, he, hinv⟩))]
  · intro hne hall
    rw [accountTable_eq]
    rw [if_neg (fun hc => hne (List.isEmpty_iff.mp hc))]
    rw [if_neg (by
      intro hany
      rcases List.any_eq_true.mp hany with ⟨e, he, hinv⟩
      rw [hall e he] at hinv
      cases hinv)]
  · intro prices' hagree
    have hmap1 : (plan.filter (fun e => e.account == acc)).map (entryRow prices')
        = (plan.filter (fun e => e.account == acc)).map (entryRow prices) :=
      List.map_congr_left (fun e he => by simp [entryRow, hagree e he])
    have hany : ((plan.filter (fun e => e.account == acc)).any
          (fun e => invalidPrice (prices' e.asset)))
        = ((plan.filter (fun e => e.account == acc)).any
          (fun e => invalidPrice (prices e.asset))) := by
      cases hb : (plan.filter (fun e => e.account == acc)).any
          (fun e => invalidPrice (prices e.asset)) with
      | false =>
        refine List.any_eq_false.mpr ?_
        intro e he
        rw [hagree e he]
        exact List.any_eq_false.mp hb e he
      | true =>
        rcases List.any_eq_true.mp hb with ⟨e, he, hinv⟩
        exact List.any_eq_true.mpr ⟨e, he, by rw [hagree e he]; exact hinv⟩
    have hmap2 : (plan.filter (fun e => e.account == acc)).map (fun e =>
          (e.asset, e.value, (prices' e.asset).getD 0, e.value / (prices' e.asset).getD 0))
        = (plan.filter (fun e => e.account == acc)).map (fun e =>
          (e.asset, e.value, (prices e.asset).getD 0, e.value / (prices e.asset).getD 0)) :=
      List.map_congr_left (fun e he => by rw [hagree e he])
    rw [accountTable_eq, accountTable_eq, hmap1, hany, hmap2]
  · intro accounts
    simp [buildReport]

/-- Witness for `report_per_account`: an account whose single entry has a
valid price gets a share count even though another account's price is
missing. -/
theorem report_per_account_witness :
    accountTable [⟨"Good", "XXX", 100, "Taxable"⟩, ⟨"Bad", "YYY", 100, "Taxable"⟩]
        cexPrices "Good"
      = AccountReport.withShares [("XXX", 100, 50, 2)] := by
  have h := (report_per_account
      [⟨"Good", "XXX", 100, "Taxable"⟩, ⟨"Bad", "YYY", 100, "Taxable"⟩]
      cexPrices "Good").2.2.1 (by decide) (by decide)
  rw [h]
  norm_num [cexPrices]
  decide

/-! ### Claim theorems for the volatility computation -/

/-- C9 counterexample: a series of exactly two points yields one return,
whose pandas sample standard deviation (`ddof = 1`) is `NaN`: the
annualized volatility is undefined there, not a non-negative value. -/
theorem volatility_two_points_cex :
    annualizedVolSq [1, 2] = none ∧ (2:Nat) ≤ ([(1:ℚ), 2]).length := by
  exact ⟨rfl, by norm_num⟩

/-- C9 amended: for every price series with at least 3 points (hence at
least two returns), the squared annualized volatility is well defined and
non-negative — so the annualized volatility `√` of it times `√252` is a
well-defined non-negative value. -/
theorem volatility_nonneg (prices : List ℚ) (h : 3 ≤ prices.length) :
    ∃ v, annualizedVolSq prices = some v ∧ 0 ≤ v := by
  have hlen : 2 ≤ (pct_change prices).length := by
    unfold pct_change
    rw [List.length_map, List.length_zip, List.length_tail]
    rw [Nat.min_eq_right (Nat.sub_le _ _)]
    omega
  unfold annualizedVolSq sampleVarianceQ
  rw [if_neg (by omega)]
  refine ⟨_, rfl, ?_⟩
  have hnum : 0 ≤ ((pct_change prices).map
      (fun x => (x - listMean (pct_change prices)) ^ 2)).sum := by
    refine List.sum_nonneg ?_
    intro x hx
    rcases List.mem_map.mp hx with ⟨y, hy, rfl⟩
    exact sq_nonneg _
  have hden : 0 ≤ ((pct_change prices).length : ℚ) - 1 := by
    have h2 : (2:ℚ) ≤ ((pct_change prices).length : ℚ) := by exact_mod_cast hlen
    linarith
  exact mul_nonneg (div_nonneg hnum hden) (by norm_num)

/-- Witness for `volatility_nonneg`: a concrete three-point series. -/
theorem volatility_nonneg_witness :
    ∃ v, annualizedVolSq [1, 2, 4] = some v ∧ 0 ≤ v :=
  volatility_nonneg [1, 2, 4] (by simp)

end App
